import Mathlib

/-!
Shallow embedding of the blueprint-optimizer core
(`src/python/quantum_blueprint_optimizer.py` and
`src/python/sector_processing.py`) together with proofs that settle the
frozen claims about it.

Modelling conventions:
* Node positions and the partitioner arithmetic are exact rationals, so the
  partitioner (`create_sectors`) is fully computable and claims about it can
  be settled by `decide`.
* The optimizer's numerics (veil factors, harmony values, Hamiltonian,
  amplitudes) are exact reals / complexes; Python floats are modelled by
  exact arithmetic, so floating-point rounding and NaN are outside the
  model (the zero-norm guard is representable, the NaN guard is not).
* Python exceptions are modelled by `Except OptError` / first-error
  propagation in the order the source performs its checks.
-/

/-- Enumeration of the supported fixture categories
(`FixtureType` in the source). -/
inductive FixtureType where
  | socket | switch | light | outlet | vent | duct | pipe | beam | generic
deriving DecidableEq, Repr, Inhabited

/-- Visibility presets used by the veiling system (`LayerProfile`). -/
inductive LayerProfile where
  | all_layers | electrical_only | hvac_only | structural_only
  | electrical_hvac | mechanical
deriving DecidableEq, Repr

/-- A fixture candidate (`FixtureNode`).  The optional diagnostic attribute
map of the source is omitted: no operation of the core reads it. -/
structure FixtureNode where
  id : String
  position : ℚ × ℚ
  fixture_type : FixtureType
deriving DecidableEq, Repr, Inhabited

/-- A partition cell processed as one optimisation unit (`SectorConfig`). -/
structure SectorConfig where
  sector_id : ℕ
  nodes : List FixtureNode
  boundaries : List String
  bounding_box : ℚ × ℚ × ℚ × ℚ
deriving DecidableEq, Repr

/-- Per-fixture-type visibility weight of one layer profile; each branch
mirrors one `_*_profile` method of `LayerVeilingSystem` (the dampened
visibility constant is 0.05). -/
noncomputable def veilValue (profile : LayerProfile) (t : FixtureType) : ℝ :=
  match profile with
  | .all_layers => 1
  | .electrical_only =>
      if t = .socket ∨ t = .switch ∨ t = .light ∨ t = .outlet then 1 else 0.05
  | .hvac_only => if t = .vent ∨ t = .duct then 1 else 0.05
  | .structural_only => if t = .beam then 1 else 0.05
  | .electrical_hvac =>
      if t = .socket ∨ t = .switch ∨ t = .light ∨ t = .outlet then 0.8
      else if t = .vent ∨ t = .duct then 0.7 else 0.2
  | .mechanical =>
      if t = .vent ∨ t = .duct ∨ t = .pipe ∨ t = .beam then 0.9 else 0.3

/-- Veil factor vector for a node list under a profile
(`LayerVeilingSystem.get_veil_factors`); every profile value is in the
dispatch map, the empty node list yields the empty vector. -/
noncomputable def get_veil_factors (nodes : List FixtureNode)
    (profile : LayerProfile) : List ℝ :=
  nodes.map fun nd => veilValue profile nd.fixture_type

/-- Pairwise type-compatibility weight
(`SectorProcessor._calculate_fixture_harmony`): the source tests the
argument ORDER (socket, switch) and (vent, duct); the reversed orders fall
through to the distance rule. -/
noncomputable def calculate_fixture_harmony (type1 type2 : FixtureType)
    (distance : ℝ) : ℝ :=
  if type1 = .socket ∧ type2 = .switch then -0.5 / (1 + distance * 0.1)
  else if type1 = .vent ∧ type2 = .duct then -0.8 / (1 + distance * 0.1)
  else if type1 = .beam ∧ type2 = .beam then -0.3 / (1 + distance * 0.1)
  else if distance < 3 then -0.2
  else 0

/-- One grid cell of `create_sectors`: the nodes whose position lies in the
half-open box `[x1,x2) x [y1,y2)`, and the boundary ids within the 10%
margin of an edge. -/
def cellFilter (nodes : List FixtureNode) (x1 x2 y1 y2 : ℚ) :
    List FixtureNode :=
  nodes.filter fun nd =>
    x1 ≤ nd.position.1 ∧ nd.position.1 < x2 ∧
      y1 ≤ nd.position.2 ∧ nd.position.2 < y2

/-- Boundary-node ids of one cell (margin fraction 0.1 of the cell size). -/
def cellBoundaries (sector_nodes : List FixtureNode) (x1 x2 y1 y2 w h : ℚ) :
    List String :=
  (sector_nodes.filter fun nd =>
      nd.position.1 < x1 + (1/10) * w ∨ x2 - (1/10) * w < nd.position.1 ∨
        nd.position.2 < y1 + (1/10) * h ∨ y2 - (1/10) * h < nd.position.2).map
    FixtureNode.id

/-- Body of the grid loop of `create_sectors` for one cell `rc = (row, col)`:
skip the cell when it is empty or over capacity, otherwise append a sector
with the next dense sequential id. -/
def sectorStep (nodes : List FixtureNode) (min_x min_y w h : ℚ)
    (max_nodes_per_sector : ℕ) (acc : List SectorConfig × ℕ) (rc : ℕ × ℕ) :
    List SectorConfig × ℕ :=
  let x1 := min_x + (rc.2 : ℚ) * w
  let x2 := x1 + w
  let y1 := min_y + (rc.1 : ℚ) * h
  let y2 := y1 + h
  let sector_nodes := cellFilter nodes x1 x2 y1 y2
  if sector_nodes.isEmpty then acc
  else if max_nodes_per_sector < sector_nodes.length then acc
  else
    (acc.1 ++
      [{ sector_id := acc.2, nodes := sector_nodes,
         boundaries := cellBoundaries sector_nodes x1 x2 y1 y2 w h,
         bounding_box := (x1, y1, x2, y2) }],
     acc.2 + 1)

/-- Row-major spatial partitioning (`SectorProcessor.create_sectors`):
bounding box of all positions, a rows x cols grid of equal cells, each node
kept by the half-open membership test of its cell; empty cells are skipped
and over-capacity cells are dropped whole; kept sectors get dense
sequential ids. -/
def create_sectors (nodes : List FixtureNode) (max_nodes_per_sector : ℕ)
    (sector_grid : ℕ × ℕ) : List SectorConfig :=
  match nodes with
  | [] => []
  | n0 :: _ =>
    let xs := nodes.map fun nd => nd.position.1
    let ys := nodes.map fun nd => nd.position.2
    let min_x := xs.foldl min n0.position.1
    let max_x := xs.foldl max n0.position.1
    let min_y := ys.foldl min n0.position.2
    let max_y := ys.foldl max n0.position.2
    let rows := sector_grid.1
    let cols := sector_grid.2
    let w := (max_x - min_x) / (max cols 1 : ℕ)
    let h := (max_y - min_y) / (max rows 1 : ℕ)
    let cells :=
      (List.range rows).flatMap fun r => (List.range cols).map fun c => (r, c)
    (cells.foldl (sectorStep nodes min_x min_y w h max_nodes_per_sector)
      ([], 0)).1

/-- Euclidean distance between two node positions (`np.linalg.norm` of the
position difference). -/
noncomputable def nodeDistance (a b : FixtureNode) : ℝ :=
  Real.sqrt (((a.position.1 : ℝ) - (b.position.1 : ℝ)) ^ 2 +
    ((a.position.2 : ℝ) - (b.position.2 : ℝ)) ^ 2)

/-- Proximity graph of one sector (`SectorProcessor.build_sector_graph`).
The source fills a zero matrix symmetrically over index pairs i < j; the
closed form below gives the same matrix: entry (i,j) is 1 iff i and j are
distinct nodes at distance strictly below the threshold.  The harmony map
keeps the pairs i < j whose connection exists and whose harmony value is
nonzero (Python truthiness of a float). -/
noncomputable def build_sector_graph (sector : SectorConfig)
    (connection_threshold : ℝ) :
    List (List ℝ) × List ((ℕ × ℕ) × ℝ) :=
  let n := sector.nodes.length
  let nd := fun i => sector.nodes.getD i default
  let adjacency :=
    (List.range n).map fun i =>
      (List.range n).map fun j =>
        if i ≠ j ∧ nodeDistance (nd i) (nd j) < connection_threshold
        then (1 : ℝ) else 0
  let harmonies :=
    (List.range n).flatMap fun i =>
      (List.range n).filterMap fun j =>
        if i < j ∧ nodeDistance (nd i) (nd j) < connection_threshold ∧
            calculate_fixture_harmony (nd i).fixture_type (nd j).fixture_type
              (nodeDistance (nd i) (nd j)) ≠ 0
        then some ((i, j),
          calculate_fixture_harmony (nd i).fixture_type (nd j).fixture_type
            (nodeDistance (nd i) (nd j)))
        else none
  (adjacency, harmonies)

/-- Configuration scalars of `QuantumBlueprintOptimizer.__init__`. -/
structure OptimizerParams where
  time_steps : ℕ
  dt : ℝ
  laplacian_weight : ℝ
  harmony_weight : ℝ
  veil_weight : ℝ
  preference_weight : ℝ
  selection_ratio : ℝ

/-- Optional caller-supplied context (`extra_context` dictionary): an
optional preference vector and an optional penalty matrix. -/
structure ExtraContext where
  preference_vector : Option (List ℝ) := none
  penalty_matrix : Option (List (List ℝ)) := none

/-- Exceptions the optimizer can raise, one constructor per `raise` site of
the source (the two `IndexError` sites are `harmonyIndexOutOfBounds` and
`probIndex`; `collapse` is the `FloatingPointError` of the walk). -/
inductive OptError where
  | emptySector
  | adjacencyNotSquare
  | veilLengthMismatch
  | harmonyIndexOutOfBounds
  | preferenceMismatch
  | penaltyShapeMismatch
  | collapse
  | probIndex
deriving DecidableEq, Repr

/-- Optimisation outcome for a single sector (`OptimizationResult`); the
probability dict is an association list in node-insertion order. -/
structure OptResult where
  sector_id : ℕ
  node_probabilities : List (String × ℝ)
  selected_nodes : List String
  wavefunction : List ℂ

/-- Input validation in source order: the empty-sector check of
`optimize_sector`, then its two shape checks, then the checks raised while
`_build_hamiltonian` assembles its terms.  The source sets
`node_count = adjacency.shape[0]`, so every shape is compared against the
adjacency matrix's own first dimension, never against the length of
`config.nodes`. -/
def validate_sector_inputs (cfg : SectorConfig) (adjacency : List (List ℝ))
    (harmonies : List ((ℕ × ℕ) × ℝ)) (veil : List ℝ)
    (extra : Option ExtraContext) : Option OptError :=
  let n := adjacency.length
  if cfg.nodes.isEmpty then some .emptySector
  else if ! adjacency.all (fun row => row.length == n) then
    some .adjacencyNotSquare
  else if veil.length ≠ n then some .veilLengthMismatch
  else if harmonies.any (fun e => n ≤ e.1.1 ∨ n ≤ e.1.2) then
    some .harmonyIndexOutOfBounds
  else
    match extra with
    | none => none
    | some ctx =>
      match (match ctx.preference_vector with
             | some pref =>
                 if pref.length ≠ n then some OptError.preferenceMismatch
                 else none
             | none => none) with
      | some e => some e
      | none =>
        match ctx.penalty_matrix with
        | some pen =>
            if ! (pen.length == n && pen.all fun row => row.length == n) then
              some .penaltyShapeMismatch
            else none
        | none => none

/-- Entry (i, j) of the adjacency matrix, 0 outside its extent. -/
def adjEntry (adjacency : List (List ℝ)) (i j : ℕ) : ℝ :=
  (adjacency.getD i []).getD j 0

/-- Entry (i, j) of the assembled Hamiltonian
(`QuantumBlueprintOptimizer._build_hamiltonian`): weighted Laplacian
(degree diagonal minus adjacency), mirrored harmony entries, the diagonal
visibility penalty `1 - clamp(veil, 0, 1)`, minus the weighted preference
diagonal, plus the raw penalty matrix. -/
noncomputable def hEntry (p : OptimizerParams) (adjacency : List (List ℝ))
    (harmonies : List ((ℕ × ℕ) × ℝ)) (veil : List ℝ)
    (extra : Option ExtraContext) (i j : ℕ) : ℝ :=
  let n := adjacency.length
  let a := adjEntry adjacency
  let lap := (if i = j then ∑ k ∈ Finset.range n, a i k else 0) - a i j
  let harm := (harmonies.map fun e =>
      (if (i, j) = e.1 then e.2 else 0) + (if (j, i) = e.1 then e.2 else 0)).sum
  let veilTerm :=
    if veil.isEmpty then 0
    else if i = j then 1 - min 1 (max 0 (veil.getD i 0)) else 0
  let prefTerm :=
    match extra with
    | none => 0
    | some ctx =>
      match ctx.preference_vector with
      | none => 0
      | some pref => if i = j then pref.getD i 0 else 0
  let penTerm :=
    match extra with
    | none => 0
    | some ctx =>
      match ctx.penalty_matrix with
      | none => 0
      | some pen => (pen.getD i []).getD j 0
  p.laplacian_weight * lap + p.harmony_weight * harm +
    p.veil_weight * veilTerm - p.preference_weight * prefTerm + penTerm

/-- The Hamiltonian as a square matrix of dimension `adjacency.length`. -/
noncomputable def hamiltonianMatrix (p : OptimizerParams)
    (adjacency : List (List ℝ)) (harmonies : List ((ℕ × ℕ) × ℝ))
    (veil : List ℝ) (extra : Option ExtraContext) :
    Matrix (Fin adjacency.length) (Fin adjacency.length) ℝ :=
  Matrix.of fun i j => hEntry p adjacency harmonies veil extra i j

/-- The discrete evolution operator computed once before the loop:
`torch.linalg.matrix_exp(-1j * hamiltonian * dt)`. -/
noncomputable def evolutionOperator {n : ℕ} (dt : ℝ)
    (H : Matrix (Fin n) (Fin n) ℝ) : Matrix (Fin n) (Fin n) ℂ :=
  NormedSpace.exp ℂ ((-Complex.I * (dt : ℂ)) • H.map Complex.ofReal)

/-- Initial amplitude vector: uniform superposition, every entry
`1 / sqrt(node_count)`. -/
noncomputable def uniformState (n : ℕ) : Fin n → ℂ :=
  fun _ => ((1 / Real.sqrt n : ℝ) : ℂ)

/-- Euclidean norm of the amplitude vector (`torch.linalg.norm(psi)`). -/
noncomputable def wnorm {n : ℕ} (v : Fin n → ℂ) : ℝ :=
  Real.sqrt (∑ k, Complex.normSq (v k))

/-- One iteration of the evolution loop: apply the operator, abort with the
numerical-failure error when the norm is zero (NaN has no counterpart in
exact arithmetic), otherwise renormalize. -/
noncomputable def walkStep {n : ℕ} (U : Matrix (Fin n) (Fin n) ℂ)
    (psi : Fin n → ℂ) : Except OptError (Fin n → ℂ) :=
  let phi := U.mulVec psi
  if wnorm phi = 0 then .error .collapse
  else .ok (((wnorm phi : ℝ) : ℂ)⁻¹ • phi)

/-- The evolution loop run for the given number of remaining steps. -/
noncomputable def walkIter {n : ℕ} (U : Matrix (Fin n) (Fin n) ℂ) :
    ℕ → (Fin n → ℂ) → Except OptError (Fin n → ℂ)
  | 0, psi => .ok psi
  | s + 1, psi => (walkStep U psi).bind (walkIter U s)

/-- The quantum-walk simulation (`QuantumBlueprintOptimizer._simulate_walk`):
start from the uniform superposition and iterate `time_steps` times. -/
noncomputable def simulate_walk {n : ℕ} (U : Matrix (Fin n) (Fin n) ℂ)
    (time_steps : ℕ) : Except OptError (Fin n → ℂ) :=
  walkIter U time_steps (uniformState n)

/-- Selection threshold (`QuantumBlueprintOptimizer._select_nodes`): with
`c = min(max(1, ceil(node_count * ratio)), node_count)` the threshold is
the c-th largest probability, i.e. entry c-1 of the descending sort (for
`node_count = 0` the source raises on the empty `topk`; that input is
unreachable from the optimizer, which validates first). -/
noncomputable def selection_threshold (ratio : ℝ) (probs : List ℝ) : ℝ :=
  let node_count := probs.length
  let c := min (max 1 (Int.toNat ⌈(node_count : ℝ) * ratio⌉)) node_count
  (List.insertionSort (· ≥ ·) probs).getD (c - 1) 0

/-- Tie-inclusive node selection: every node whose probability reaches the
threshold is kept, in input order (`zip` truncates to the shorter list as
in Python). -/
noncomputable def select_nodes (ratio : ℝ) (nodes : List FixtureNode)
    (probs : List ℝ) : List String :=
  let threshold := selection_threshold ratio probs
  (nodes.zip probs).filterMap fun pr =>
    if pr.2 ≥ threshold then some pr.1.id else none

/-- The probability dictionary `{node.id: probabilities[idx]}` built over
`enumerate(config.nodes)`; an index at or beyond the probability vector's
extent is the source's `IndexError` on tensor indexing. -/
def attachProbs (n : ℕ) (probs : ℕ → ℝ) : ℕ → List FixtureNode →
    Except OptError (List (String × ℝ))
  | _, [] => .ok []
  | idx, nd :: rest =>
    if idx < n then
      (attachProbs n probs (idx + 1) rest).map fun tl =>
        (nd.id, probs idx) :: tl
    else .error .probIndex

/-- The core per-sector algorithm (`QuantumBlueprintOptimizer.optimize_sector`):
validate, assemble the Hamiltonian, simulate the walk, renormalize the
squared magnitudes into probabilities, and select nodes. -/
noncomputable def optimize_sector (p : OptimizerParams) (cfg : SectorConfig)
    (adjacency : List (List ℝ)) (harmonies : List ((ℕ × ℕ) × ℝ))
    (veil : List ℝ) (extra : Option ExtraContext) :
    Except OptError OptResult :=
  match validate_sector_inputs cfg adjacency harmonies veil extra with
  | some e => .error e
  | none =>
    let n := adjacency.length
    let H := hamiltonianMatrix p adjacency harmonies veil extra
    match simulate_walk (evolutionOperator p.dt H) p.time_steps with
    | .error e => .error e
    | .ok psi =>
      let psiExt : ℕ → ℂ := fun idx => if h : idx < n then psi ⟨idx, h⟩ else 0
      let total := ∑ k, Complex.normSq (psi k)
      let probs : ℕ → ℝ := fun idx => Complex.normSq (psiExt idx) / total
      match attachProbs n probs 0 cfg.nodes with
      | .error e => .error e
      | .ok node_probabilities =>
        .ok { sector_id := cfg.sector_id,
              node_probabilities := node_probabilities,
              selected_nodes := select_nodes p.selection_ratio cfg.nodes
                ((List.range n).map probs),
              wavefunction := (List.range n).map psiExt }

/-- One unit of work for the batch orchestrator (`SectorOptimizationTask`). -/
structure SectorOptimizationTask where
  config : SectorConfig
  veil_profile : LayerProfile
  extra_context : Option ExtraContext := none

/-- The per-task pipeline (`SectorProcessor.optimize_sector`): veil factors
from the veiling system, graph from the partitioner, then the optimizer. -/
noncomputable def processor_optimize_sector (p : OptimizerParams)
    (connection_threshold : ℝ) (task : SectorOptimizationTask) :
    Except OptError OptResult :=
  let veil_factors := get_veil_factors task.config.nodes task.veil_profile
  let g := build_sector_graph task.config connection_threshold
  optimize_sector p task.config g.1 g.2 veil_factors task.extra_context

/-- The batch orchestrator (`SectorProcessor.optimize_sectors`).  The source
submits every task to a `ThreadPoolExecutor` and iterates `as_completed`,
appending `future.result()`; the first failing future re-raises inside the
loop, the locally collected results are discarded, and the pool is joined
on exit.  So in every completion order the call either returns all results
(no task failed) or raises one failing task's exception with no results;
`mapM` over the task list realises exactly that outcome, with list order
standing in for the nondeterministic completion order. -/
noncomputable def optimize_sectors (p : OptimizerParams)
    (connection_threshold : ℝ) (tasks : List SectorOptimizationTask) :
    Except OptError (List OptResult) :=
  tasks.mapM (processor_optimize_sector p connection_threshold)

/-- Default optimizer configuration values of the source constructor. -/
noncomputable def defaultParams : OptimizerParams :=
  { time_steps := 48, dt := 0.05, laplacian_weight := 1, harmony_weight := 1,
    veil_weight := 0.35, preference_weight := 0.5, selection_ratio := 0.25 }

/-! Concrete instances used when settling individual claims. -/

/-- Node at the bounding-box minimum corner. -/
def nodeOrigin : FixtureNode :=
  { id := "a", position := (0, 0), fixture_type := .generic }

/-- Node at the bounding-box maximum corner. -/
def nodeMax : FixtureNode :=
  { id := "b", position := (1, 1), fixture_type := .generic }

/-- Two nodes sharing the same x coordinate (degenerate bounding box). -/
def sameXNodes : List FixtureNode :=
  [{ id := "u", position := (2, 0), fixture_type := .generic },
   { id := "v", position := (2, 5), fixture_type := .generic }]

/-- A sector configuration with no nodes at all. -/
def cfgEmpty : SectorConfig :=
  { sector_id := 3, nodes := [], boundaries := [], bounding_box := (0, 0, 0, 0) }

/-- A single-node sector. -/
def cfgSingle : SectorConfig :=
  { sector_id := 5,
    nodes := [{ id := "g", position := (0, 0), fixture_type := .generic }],
    boundaries := [], bounding_box := (0, 0, 1, 1) }

/-- A two-node sector. -/
def cfgPair : SectorConfig :=
  { sector_id := 4,
    nodes := [{ id := "p", position := (0, 0), fixture_type := .generic },
              { id := "q", position := (50, 50), fixture_type := .generic }],
    boundaries := [], bounding_box := (0, 0, 100, 100) }

/-- A one-node sector handed a 2 x 2 adjacency matrix. -/
def cfgMismatch : SectorConfig :=
  { sector_id := 9,
    nodes := [{ id := "m", position := (0, 0), fixture_type := .generic }],
    boundaries := [], bounding_box := (0, 0, 1, 1) }

/-- Four mutually disconnected nodes (spec Scenario B). -/
def cfgQuad : SectorConfig :=
  { sector_id := 2,
    nodes := [{ id := "b0", position := (0, 0), fixture_type := .generic },
              { id := "b1", position := (100, 0), fixture_type := .generic },
              { id := "b2", position := (0, 100), fixture_type := .generic },
              { id := "b3", position := (100, 100), fixture_type := .generic }],
    boundaries := [], bounding_box := (0, 0, 100, 100) }

/-- All-zero 1 x 1 adjacency matrix. -/
noncomputable def zero1 : List (List ℝ) := [[0]]

/-- All-zero 2 x 2 adjacency matrix. -/
noncomputable def zero2 : List (List ℝ) := [[0, 0], [0, 0]]

/-- All-zero 4 x 4 adjacency matrix. -/
noncomputable def zero4 : List (List ℝ) :=
  [[0, 0, 0, 0], [0, 0, 0, 0], [0, 0, 0, 0], [0, 0, 0, 0]]

/-- Uniform veil vector of length 2. -/
noncomputable def veil2 : List ℝ := [1, 1]

/-- Uniform veil vector of length 4. -/
noncomputable def veil4 : List ℝ := [1, 1, 1, 1]

/-- Default optimizer configuration with the laplacian weight and the step
count replaced (spec Scenario B quantifies over both). -/
noncomputable def paramsAt (lw : ℝ) (t : ℕ) : OptimizerParams :=
  { time_steps := t, dt := 0.05, laplacian_weight := lw, harmony_weight := 1,
    veil_weight := 0.35, preference_weight := 0.5, selection_ratio := 0.25 }

/-- Batch task whose sector is empty (its optimisation raises). -/
def taskBad : SectorOptimizationTask :=
  { config := cfgEmpty, veil_profile := .all_layers }

/-- Batch task whose sector optimises successfully. -/
def taskGood : SectorOptimizationTask :=
  { config := cfgSingle, veil_profile := .all_layers }

/-- The successful result of `taskGood` run alone. -/
noncomputable def resGood : OptResult :=
  { sector_id := 5, node_probabilities := [("g", 1)], selected_nodes := ["g"],
    wavefunction := [1] }

/-- The result `optimize_sector` produces for `cfgPair` on the all-zero
2 x 2 adjacency. -/
noncomputable def rPair : OptResult :=
  { sector_id := 4,
    node_probabilities := [("p", (2 : ℝ)⁻¹), ("q", (2 : ℝ)⁻¹)],
    selected_nodes := ["p", "q"],
    wavefunction := List.replicate 2 ((1 / Real.sqrt 2 : ℝ) : ℂ) }

/-- Nodes for the node-selection witness. -/
def nodesSel : List FixtureNode :=
  [{ id := "s1", position := (0, 0), fixture_type := .generic },
   { id := "s2", position := (1, 0), fixture_type := .generic }]

/-- Probability vector for the node-selection witness. -/
noncomputable def probsSel : List ℝ := [3 / 4, 1 / 4]

/-! ## Claim C2: harmony symmetry -/

/-- C2 counterexample: the fixture-harmony function is NOT argument-order
symmetric.  At distance 1 the ordered pair (socket, switch) gets the
special value -0.5/1.1 while the reversed pair (switch, socket) falls
through to the close-distance rule -0.2. -/
theorem harmony_not_symmetric :
    calculate_fixture_harmony FixtureType.switch FixtureType.socket 1 ≠
      calculate_fixture_harmony FixtureType.socket FixtureType.switch 1 := by
  simp only [calculate_fixture_harmony, reduceCtorEq, false_and, and_false,
    and_self, if_false, if_true, ite_false, ite_true]
  norm_num

/-- C2 amended: the harmony function is argument-order symmetric for every
pair of types other than \x7bsocket, switch\x7d and \x7bvent, duct\x7d, whose special
values are produced for one argument order only. -/
theorem harmony_symmetric_off_special_pairs (a b : FixtureType) (d : ℝ)
    (h1 : ¬((a = .socket ∧ b = .switch) ∨ (a = .switch ∧ b = .socket)))
    (h2 : ¬((a = .vent ∧ b = .duct) ∨ (a = .duct ∧ b = .vent))) :
    calculate_fixture_harmony a b d = calculate_fixture_harmony b a d := by
  cases a <;> cases b <;> simp_all [calculate_fixture_harmony]

/-- C2 amended witness at the concrete pair (light, generic), distance 2. -/
theorem harmony_symmetric_off_special_pairs_witness :
    calculate_fixture_harmony FixtureType.light FixtureType.generic 2 =
      calculate_fixture_harmony FixtureType.generic FixtureType.light 2 :=
  harmony_symmetric_off_special_pairs _ _ _ (by decide) (by decide)

/-! ## Claims C3 and C9: the grid partitioner -/

/-- Folding `min` over a list of copies of the start value is the start
value. -/
theorem foldl_min_const (c : ℚ) :
    ∀ l : List ℚ, (∀ x ∈ l, x = c) → l.foldl min c = c := by
  intro l
  induction l with
  | nil => intro _; rfl
  | cons a t ih =>
    intro h
    rw [List.foldl_cons, h a (List.mem_cons_self a t), min_self]
    exact ih fun x hx => h x (List.mem_cons_of_mem _ hx)

/-- Folding `max` over a list of copies of the start value is the start
value. -/
theorem foldl_max_const (c : ℚ) :
    ∀ l : List ℚ, (∀ x ∈ l, x = c) → l.foldl max c = c := by
  intro l
  induction l with
  | nil => intro _; rfl
  | cons a t ih =>
    intro h
    rw [List.foldl_cons, h a (List.mem_cons_self a t), max_self]
    exact ih fun x hx => h x (List.mem_cons_of_mem _ hx)

/-- With zero cell width every cell's half-open x-interval is empty, so the
grid-loop body keeps the accumulator unchanged. -/
theorem sectorStep_w_zero (nodes : List FixtureNode) (min_x min_y h : ℚ)
    (m : ℕ) (hx : ∀ nd ∈ nodes, nd.position.1 = min_x)
    (acc : List SectorConfig × ℕ) (rc : ℕ × ℕ) :
    sectorStep nodes min_x min_y 0 h m acc rc = acc := by
  have hfil : ∀ y1 y2 : ℚ, cellFilter nodes min_x min_x y1 y2 = [] := by
    intro y1 y2
    apply List.filter_eq_nil_iff.mpr
    intro nd hnd
    simp [hx nd hnd]
  simp [sectorStep, hfil]

/-- With zero cell height every cell's half-open y-interval is empty, so
the grid-loop body keeps the accumulator unchanged. -/
theorem sectorStep_h_zero (nodes : List FixtureNode) (min_x min_y w : ℚ)
    (m : ℕ) (hy : ∀ nd ∈ nodes, nd.position.2 = min_y)
    (acc : List SectorConfig × ℕ) (rc : ℕ × ℕ) :
    sectorStep nodes min_x min_y w 0 m acc rc = acc := by
  have hfil : ∀ x1 x2 : ℚ, cellFilter nodes x1 x2 min_y min_y = [] := by
    intro x1 x2
    apply List.filter_eq_nil_iff.mpr
    intro nd hnd
    simp [hy nd hnd]
  simp [sectorStep, hfil]

/-- C9: when every node shares the same x coordinate, or every node shares
the same y coordinate, the bounding box is degenerate, each cell's
half-open interval is empty, and `create_sectors` emits no sector at all —
every node is lost although the input is non-empty and no cell is over
capacity. -/
theorem create_sectors_degenerate (nodes : List FixtureNode) (m : ℕ)
    (grid : ℕ × ℕ) (hne : nodes ≠ [])
    (hdeg : (∀ a ∈ nodes, ∀ b ∈ nodes, a.position.1 = b.position.1) ∨
            (∀ a ∈ nodes, ∀ b ∈ nodes, a.position.2 = b.position.2)) :
    create_sectors nodes m grid = [] := by
  match nodes, hne with
  | n0 :: rest, _ =>
    rcases hdeg with hx | hy
    · have hall : ∀ nd ∈ n0 :: rest, nd.position.1 = n0.position.1 :=
        fun nd hnd => hx nd hnd n0 (List.mem_cons_self n0 rest)
      have hmapx : ∀ x ∈ (n0 :: rest).map fun nd => nd.position.1,
          x = n0.position.1 := by
        intro x hxm
        obtain ⟨nd, hnd, rfl⟩ := List.mem_map.mp hxm
        exact hall nd hnd
      simp only [create_sectors]
      rw [foldl_min_const _ _ hmapx, foldl_max_const _ _ hmapx, sub_self,
        zero_div]
      rw [List.foldl_fixed' (sectorStep_w_zero (n0 :: rest) _ _ _ _ hall _)]
    · have hall : ∀ nd ∈ n0 :: rest, nd.position.2 = n0.position.2 :=
        fun nd hnd => hy nd hnd n0 (List.mem_cons_self n0 rest)
      have hmapy : ∀ y ∈ (n0 :: rest).map fun nd => nd.position.2,
          y = n0.position.2 := by
        intro y hym
        obtain ⟨nd, hnd, rfl⟩ := List.mem_map.mp hym
        exact hall nd hnd
      simp only [create_sectors]
      rw [foldl_min_const _ _ hmapy, foldl_max_const _ _ hmapy, sub_self,
        zero_div]
      rw [List.foldl_fixed' (sectorStep_h_zero (n0 :: rest) _ _ _ _ hall _)]

/-- C9 witness: two distinct nodes on the vertical line x = 2 produce no
sector under the default 4 x 4 grid. -/
theorem create_sectors_degenerate_witness :
    create_sectors sameXNodes 512 (4, 4) = [] :=
  create_sectors_degenerate sameXNodes 512 (4, 4) (by decide)
    (Or.inl (by decide))

/-- C3: the node at the global maximum corner fails the strict upper bound
of every half-open cell, so it is assigned to NO cell: on the two-node
input below only the origin node survives partitioning and the id "b"
appears in no emitted sector.  The absolute-maximum-boundary edge case is
not handled. -/
theorem create_sectors_loses_max_boundary_node :
    create_sectors [nodeOrigin, nodeMax] 512 (1, 1) =
      [{ sector_id := 0, nodes := [nodeOrigin], boundaries := ["a"],
         bounding_box := (0, 0, 1, 1) }] ∧
    "b" ∉ (create_sectors [nodeOrigin, nodeMax] 512 (1, 1)).flatMap
        (fun s => s.nodes.map FixtureNode.id) := by
  have h : create_sectors [nodeOrigin, nodeMax] 512 (1, 1) =
      [{ sector_id := 0, nodes := [nodeOrigin], boundaries := ["a"],
         bounding_box := (0, 0, 1, 1) }] := by
    norm_num [create_sectors, sectorStep, cellFilter, cellBoundaries,
      nodeOrigin, nodeMax, List.foldl, List.filter, List.range_succ,
      min_def, max_def]
  refine ⟨h, ?_⟩
  rw [h]
  simp [nodeOrigin]

/-! ## Claim C6: the evolution loop -/

/-- The amplitude norm is nonnegative. -/
theorem wnorm_nonneg {n : ℕ} (v : Fin n → ℂ) : 0 ≤ wnorm v :=
  Real.sqrt_nonneg _

/-- The sum of squared magnitudes is nonnegative. -/
theorem sum_normSq_nonneg {n : ℕ} (v : Fin n → ℂ) :
    0 ≤ ∑ k, Complex.normSq (v k) :=
  Finset.sum_nonneg fun _ _ => Complex.normSq_nonneg _

/-- The amplitude norm vanishes exactly on the zero vector. -/
theorem wnorm_eq_zero_iff {n : ℕ} (v : Fin n → ℂ) : wnorm v = 0 ↔ v = 0 := by
  unfold wnorm
  rw [Real.sqrt_eq_zero']
  constructor
  · intro hle
    have hz : ∑ k, Complex.normSq (v k) = 0 :=
      le_antisymm hle (sum_normSq_nonneg v)
    funext k
    exact Complex.normSq_eq_zero.mp
      ((Finset.sum_eq_zero_iff_of_nonneg
        (fun i _ => Complex.normSq_nonneg (v i))).mp hz k (Finset.mem_univ k))
  · rintro rfl
    simp

/-- Scaling an amplitude vector by a nonnegative real scales its norm. -/
theorem wnorm_real_smul {n : ℕ} (c : ℝ) (hc : 0 ≤ c) (v : Fin n → ℂ) :
    wnorm (((c : ℝ) : ℂ) • v) = c * wnorm v := by
  unfold wnorm
  have hterm : ∀ k, Complex.normSq ((((c : ℝ) : ℂ) • v) k) =
      c ^ 2 * Complex.normSq (v k) := by
    intro k
    simp only [Pi.smul_apply, smul_eq_mul, Complex.normSq_mul,
      Complex.normSq_ofReal]
    ring
  rw [Finset.sum_congr rfl fun k _ => hterm k, ← Finset.mul_sum,
    Real.sqrt_mul (sq_nonneg c), Real.sqrt_sq hc]

/-- Renormalizing a nonzero amplitude vector yields unit norm. -/
theorem wnorm_normalized {n : ℕ} (v : Fin n → ℂ) (hv : wnorm v ≠ 0) :
    wnorm (((wnorm v : ℝ) : ℂ)⁻¹ • v) = 1 := by
  rw [← Complex.ofReal_inv,
    wnorm_real_smul _ (inv_nonneg.mpr (wnorm_nonneg v)) v, inv_mul_cancel₀ hv]

/-- Binding after a raised error keeps the error. -/
theorem exceptBind_error {ε α β : Type} (e : ε) (f : α → Except ε β) :
    (Except.error e).bind f = Except.error e := rfl

/-- Binding after a successful value applies the continuation. -/
theorem exceptBind_ok {ε α β : Type} (a : α) (f : α → Except ε β) :
    (Except.ok a).bind f = f a := rfl

/-- The loop raises the numerical-failure error exactly when some iterate
of the operator sends the start state to zero within the step budget, and
the error is always the collapse error. -/
theorem walkIter_error_iff {n : ℕ} (U : Matrix (Fin n) (Fin n) ℂ) :
    ∀ (t : ℕ) (psi : Fin n → ℂ) (e : OptError),
      walkIter U t psi = .error e ↔
        e = OptError.collapse ∧ ∃ s, 1 ≤ s ∧ s ≤ t ∧ (U ^ s).mulVec psi = 0 := by
  intro t
  induction t with
  | zero =>
    intro psi e
    constructor
    · intro h
      exact absurd h (by simp [walkIter])
    · rintro ⟨-, s, hs1, hs0, -⟩
      omega
  | succ t ih =>
    intro psi e
    by_cases hz : wnorm (U.mulVec psi) = 0
    · rw [show walkIter U (t + 1) psi = .error .collapse by
        simp [walkIter, walkStep, hz, exceptBind_error, exceptBind_ok]]
      constructor
      · intro h
        have he : e = OptError.collapse := by
          cases h
          rfl
        refine ⟨he, 1, le_refl 1, by omega, ?_⟩
        rw [pow_one]
        exact (wnorm_eq_zero_iff _).mp hz
      · rintro ⟨rfl, -⟩
        rfl
    · have hUne : U.mulVec psi ≠ 0 := fun h0 => hz (by rw [h0]; simp [wnorm])
      have ha : (((wnorm (U.mulVec psi) : ℝ) : ℂ))⁻¹ ≠ 0 :=
        inv_ne_zero (Complex.ofReal_ne_zero.mpr hz)
      rw [show walkIter U (t + 1) psi =
          walkIter U t (((wnorm (U.mulVec psi) : ℝ) : ℂ)⁻¹ • U.mulVec psi) by
        simp [walkIter, walkStep, hz, exceptBind_error, exceptBind_ok], ih]
      constructor
      · rintro ⟨rfl, s, hs1, hst, h0⟩
        refine ⟨rfl, s + 1, by omega, by omega, ?_⟩
        rw [Matrix.mulVec_smul] at h0
        rcases smul_eq_zero.mp h0 with hcontra | h0'
        · exact absurd hcontra ha
        · rw [pow_succ, ← Matrix.mulVec_mulVec]
          exact h0'
      · rintro ⟨rfl, s, hs1, hst1, h0⟩
        rcases s with - | - | s'
        · omega
        · rw [pow_one] at h0
          exact absurd h0 hUne
        · refine ⟨rfl, s' + 1, by omega, by omega, ?_⟩
          rw [Matrix.mulVec_smul, smul_eq_zero]
          right
          rw [Matrix.mulVec_mulVec, ← pow_succ]
          exact h0

/-- On success the loop's output is the t-fold application of the operator
to the start state, rescaled to unit norm: the loop applies the operator
exactly t times and only renormalizes in between. -/
theorem walkIter_ok_eq {n : ℕ} (U : Matrix (Fin n) (Fin n) ℂ) :
    ∀ (t : ℕ) (psi psi2 : Fin n → ℂ), wnorm psi = 1 →
      walkIter U t psi = .ok psi2 →
      psi2 = ((wnorm ((U ^ t).mulVec psi) : ℝ) : ℂ)⁻¹ • (U ^ t).mulVec psi := by
  intro t
  induction t with
  | zero =>
    intro psi psi2 h1 hok
    have hps : psi = psi2 := by
      cases hok
      rfl
    rw [← hps, pow_zero, Matrix.one_mulVec, h1]
    simp
  | succ t ih =>
    intro psi psi2 h1 hok
    by_cases hz : wnorm (U.mulVec psi) = 0
    · rw [show walkIter U (t + 1) psi = .error .collapse by
        simp [walkIter, walkStep, hz, exceptBind_error, exceptBind_ok]] at hok
      cases hok
    · rw [show walkIter U (t + 1) psi =
          walkIter U t (((wnorm (U.mulVec psi) : ℝ) : ℂ)⁻¹ • U.mulVec psi) by
        simp [walkIter, walkStep, hz, exceptBind_error, exceptBind_ok]] at hok
      have hres := ih _ psi2 (wnorm_normalized _ hz) hok
      rw [Matrix.mulVec_smul, Matrix.mulVec_mulVec, ← pow_succ] at hres
      have hna : wnorm (((wnorm (U.mulVec psi) : ℝ) : ℂ)⁻¹ •
          (U ^ (t + 1)).mulVec psi) =
          (wnorm (U.mulVec psi))⁻¹ * wnorm ((U ^ (t + 1)).mulVec psi) := by
        rw [← Complex.ofReal_inv,
          wnorm_real_smul _ (inv_nonneg.mpr (wnorm_nonneg _)) _]
      rw [hna] at hres
      rw [hres, smul_smul]
      congr 1
      rw [Complex.ofReal_mul, Complex.ofReal_inv, mul_inv, inv_inv]
      have hc : ((wnorm (U.mulVec psi) : ℝ) : ℂ) ≠ 0 :=
        Complex.ofReal_ne_zero.mpr hz
      rw [mul_comm ((wnorm (U.mulVec psi) : ℝ) : ℂ) _, mul_assoc,
        mul_inv_cancel₀ hc, mul_one]

/-- A successful run of the loop ends with a unit-norm state. -/
theorem walkIter_ok_wnorm {n : ℕ} (U : Matrix (Fin n) (Fin n) ℂ) :
    ∀ (t : ℕ) (psi psi2 : Fin n → ℂ), wnorm psi = 1 →
      walkIter U t psi = .ok psi2 → wnorm psi2 = 1 := by
  intro t
  induction t with
  | zero =>
    intro psi psi2 h1 hok
    have hps : psi = psi2 := by
      cases hok
      rfl
    rw [← hps]
    exact h1
  | succ t ih =>
    intro psi psi2 h1 hok
    by_cases hz : wnorm (U.mulVec psi) = 0
    · rw [show walkIter U (t + 1) psi = .error .collapse by
        simp [walkIter, walkStep, hz, exceptBind_error, exceptBind_ok]] at hok
      cases hok
    · rw [show walkIter U (t + 1) psi =
          walkIter U t (((wnorm (U.mulVec psi) : ℝ) : ℂ)⁻¹ • U.mulVec psi) by
        simp [walkIter, walkStep, hz, exceptBind_error, exceptBind_ok]] at hok
      exact ih _ psi2 (wnorm_normalized _ hz) hok

/-- The uniform superposition over at least one node has unit norm. -/
theorem wnorm_uniformState {n : ℕ} (hn : 1 ≤ n) :
    wnorm (uniformState n) = 1 := by
  have hnpos : (0 : ℝ) < n := by
    exact_mod_cast Nat.lt_of_lt_of_le Nat.zero_lt_one hn
  unfold wnorm uniformState
  have hterm : Complex.normSq ((1 / Real.sqrt n : ℝ) : ℂ) = 1 / n := by
    rw [Complex.normSq_ofReal, div_mul_div_comm, one_mul,
      Real.mul_self_sqrt (le_of_lt hnpos)]
  rw [Finset.sum_congr rfl fun k _ => hterm, Finset.sum_const,
    Finset.card_univ, Fintype.card_fin, nsmul_eq_mul, mul_one_div,
    div_self (ne_of_gt hnpos), Real.sqrt_one]

/-- The identity operator leaves any unit-norm state fixed through every
iteration of the loop. -/
theorem walkIter_one_matrix {n : ℕ} :
    ∀ (t : ℕ) (psi : Fin n → ℂ), wnorm psi = 1 →
      walkIter (1 : Matrix (Fin n) (Fin n) ℂ) t psi = .ok psi := by
  intro t
  induction t with
  | zero =>
    intro psi _
    rfl
  | succ t ih =>
    intro psi h
    have hmv : (1 : Matrix (Fin n) (Fin n) ℂ).mulVec psi = psi :=
      Matrix.one_mulVec psi
    simp only [walkIter, walkStep, hmv, h]
    rw [if_neg (by norm_num)]
    simp only [Complex.ofReal_one, inv_one, one_smul, Except.bind]
    exact ih psi h

/-- C6: the walk applies the precomputed operator exactly `time_steps`
times, renormalizing after every application: it aborts with the
numerical-failure error exactly when some iterate of the operator
annihilates the start state within the step budget (the zero-norm guard;
NaN has no counterpart in exact arithmetic), and on every non-error run the
result is the `time_steps`-fold application of the operator to the uniform
start state rescaled to unit norm. -/
theorem simulate_walk_spec {n : ℕ} (hn : 1 ≤ n)
    (U : Matrix (Fin n) (Fin n) ℂ) (t : ℕ) :
    (∀ e, simulate_walk U t = .error e ↔
      (e = OptError.collapse ∧
        ∃ s, 1 ≤ s ∧ s ≤ t ∧ (U ^ s).mulVec (uniformState n) = 0)) ∧
    (∀ psi2, simulate_walk U t = .ok psi2 →
      (∀ s, 1 ≤ s → s ≤ t → (U ^ s).mulVec (uniformState n) ≠ 0) ∧
      psi2 = ((wnorm ((U ^ t).mulVec (uniformState n)) : ℝ) : ℂ)⁻¹ •
        (U ^ t).mulVec (uniformState n)) := by
  constructor
  · intro e
    exact walkIter_error_iff U t (uniformState n) e
  · intro psi2 hok
    refine ⟨?_, walkIter_ok_eq U t _ psi2 (wnorm_uniformState hn) hok⟩
    intro s hs1 hst h0
    have herr : walkIter U t (uniformState n) = .error .collapse :=
      (walkIter_error_iff U t (uniformState n) .collapse).mpr
        ⟨rfl, s, hs1, hst, h0⟩
    rw [simulate_walk, herr] at hok
    cases hok

/-- C6 witness: the identity operator on four nodes over two steps
succeeds, and the final state is the rescaled two-fold application as the
specification theorem states. -/
theorem simulate_walk_spec_witness :
    uniformState 4 =
      ((wnorm (((1 : Matrix (Fin 4) (Fin 4) ℂ) ^ 2).mulVec
          (uniformState 4)) : ℝ) : ℂ)⁻¹ •
        ((1 : Matrix (Fin 4) (Fin 4) ℂ) ^ 2).mulVec (uniformState 4) :=
  ((simulate_walk_spec (by norm_num) (1 : Matrix (Fin 4) (Fin 4) ℂ) 2).2
    (uniformState 4)
    (walkIter_one_matrix 2 (uniformState 4)
      (wnorm_uniformState (by norm_num)))).2

/-! ## Claim C5: probabilities sum to one, one entry per node -/

/-- Probability attachment succeeds only with one entry per node: the first
components of the result are the node ids in input order. -/
theorem attachProbs_fst (n : ℕ) (probs : ℕ → ℝ) :
    ∀ (l : List FixtureNode) (idx : ℕ) (res : List (String × ℝ)),
      attachProbs n probs idx l = .ok res →
      res.map Prod.fst = l.map FixtureNode.id := by
  intro l
  induction l with
  | nil =>
    intro idx res h
    cases h
    rfl
  | cons nd rest ih =>
    intro idx res h
    by_cases hidx : idx < n
    · simp only [attachProbs, if_pos hidx] at h
      cases hrec : attachProbs n probs (idx + 1) rest with
      | error e =>
        rw [hrec] at h
        cases h
      | ok tl =>
        rw [hrec] at h
        simp only [Except.map] at h
        cases h
        simp only [List.map_cons]
        rw [ih (idx + 1) tl hrec]
    · simp only [attachProbs, if_neg hidx] at h
      cases h

/-- Probability attachment pairs the nodes with the probabilities at the
consecutive indices starting from the given one. -/
theorem attachProbs_snd (n : ℕ) (probs : ℕ → ℝ) :
    ∀ (l : List FixtureNode) (idx : ℕ) (res : List (String × ℝ)),
      attachProbs n probs idx l = .ok res →
      res.map Prod.snd = (List.range' idx l.length).map probs := by
  intro l
  induction l with
  | nil =>
    intro idx res h
    cases h
    rfl
  | cons nd rest ih =>
    intro idx res h
    by_cases hidx : idx < n
    · simp only [attachProbs, if_pos hidx] at h
      cases hrec : attachProbs n probs (idx + 1) rest with
      | error e =>
        rw [hrec] at h
        cases h
      | ok tl =>
        rw [hrec] at h
        simp only [Except.map] at h
        cases h
        simp only [List.map_cons, List.length_cons, List.range'_succ]
        rw [ih (idx + 1) tl hrec]
    · simp only [attachProbs, if_neg hidx] at h
      cases h

/-- When every index is in range and the probability function is constant
below the bound, attachment succeeds with that constant at every node. -/
theorem attachProbs_const (n : ℕ) (probs : ℕ → ℝ) (c : ℝ)
    (hc : ∀ j, j < n → probs j = c) :
    ∀ (l : List FixtureNode) (idx : ℕ), idx + l.length ≤ n →
      attachProbs n probs idx l = .ok (l.map fun nd => (nd.id, c)) := by
  intro l
  induction l with
  | nil =>
    intro idx _
    rfl
  | cons nd rest ih =>
    intro idx hle
    have hidx : idx < n := by
      simp only [List.length_cons] at hle
      omega
    have h2 : idx + 1 + rest.length ≤ n := by
      simp only [List.length_cons] at hle
      omega
    simp only [attachProbs, if_pos hidx, ih (idx + 1) h2, Except.map,
      List.map_cons, hc idx hidx]

/-- Summing a function mapped over `List.range` is the `Finset.range` sum. -/
theorem sum_map_range (f : ℕ → ℝ) (n : ℕ) :
    ((List.range n).map f).sum = ∑ i ∈ Finset.range n, f i := by
  induction n with
  | zero => rfl
  | succ m ih =>
    rw [List.range_succ, List.map_append, List.sum_append,
      Finset.sum_range_succ, ih]
    simp

/-- Summing a function mapped over `List.range'` starting at zero. -/
theorem sum_map_range' (f : ℕ → ℝ) (n : ℕ) :
    ((List.range' 0 n).map f).sum = ∑ i ∈ Finset.range n, f i := by
  rw [← List.range_eq_range', sum_map_range]

/-- C5: whenever `optimize_sector` succeeds on a valid sector (adjacency
dimension equal to the node count), the returned per-node probabilities
are the squared amplitude magnitudes renormalized by their total, carry
one entry per node in input node order, and sum to exactly 1 (exact
arithmetic; the source's 1e-6 tolerance covers float drift).  The source
stores the probabilities in a dict keyed by node id; node ids are unique
in valid inputs, making the dict the association list modelled here. -/
theorem optimize_sector_probabilities (p : OptimizerParams)
    (cfg : SectorConfig) (adjacency : List (List ℝ))
    (harmonies : List ((ℕ × ℕ) × ℝ)) (veil : List ℝ)
    (extra : Option ExtraContext) (r : OptResult)
    (hvalid : adjacency.length = cfg.nodes.length)
    (hok : optimize_sector p cfg adjacency harmonies veil extra = .ok r) :
    (r.node_probabilities.map Prod.snd).sum = 1 ∧
    r.node_probabilities.map Prod.fst = cfg.nodes.map FixtureNode.id ∧
    r.node_probabilities.map Prod.snd =
      r.wavefunction.map
        (fun z => Complex.normSq z /
          (r.wavefunction.map Complex.normSq).sum) := by
  unfold optimize_sector at hok
  split at hok
  · cases hok
  next hval =>
    dsimp only [] at hok
    split at hok
    · cases hok
    next psi hpsi =>
      split at hok
      · cases hok
      next nps hnps =>
        have hne : cfg.nodes ≠ [] := by
          intro h0
          simp [validate_sector_inputs, h0] at hval
        have hn : 1 ≤ adjacency.length := by
          rw [hvalid]
          exact List.length_pos.mpr hne
        have hw1 : wnorm psi = 1 :=
          walkIter_ok_wnorm _ p.time_steps _ psi (wnorm_uniformState hn) hpsi
        have htotal : (∑ k, Complex.normSq (psi k)) = 1 := by
          have hsq := hw1
          unfold wnorm at hsq
          exact Real.sqrt_eq_one.mp hsq
        have hfst := attachProbs_fst _ _ _ _ _ hnps
        have hsnd := attachProbs_snd _ _ _ _ _ hnps
        have hT : (((List.range adjacency.length).map
              (fun idx => if h : idx < adjacency.length
                then psi ⟨idx, h⟩ else 0)).map Complex.normSq).sum =
            ∑ k, Complex.normSq (psi k) := by
          rw [List.map_map, sum_map_range, Finset.sum_range]
          refine Finset.sum_congr rfl fun i _ => ?_
          simp only [Function.comp]
          rw [dif_pos i.isLt]
        have hsum : ((List.range' 0 adjacency.length).map
            (fun idx => Complex.normSq (if h : idx < adjacency.length
              then psi ⟨idx, h⟩ else 0) /
                ∑ k, Complex.normSq (psi k))).sum = 1 := by
          rw [sum_map_range', Finset.sum_range]
          have hstep : ∀ i : Fin adjacency.length,
              Complex.normSq (if h : (i : ℕ) < adjacency.length
                then psi ⟨(i : ℕ), h⟩ else 0) /
                  (∑ k, Complex.normSq (psi k)) =
                Complex.normSq (psi i) := by
            intro i
            rw [dif_pos i.isLt, htotal, div_one, Fin.eta]
          rw [Finset.sum_congr rfl fun i _ => hstep i]
          exact htotal
        cases hok
        refine ⟨?_, ?_, ?_⟩
        · dsimp only
          rw [hsnd, ← hvalid]
          exact hsum
        · dsimp only
          exact hfst
        · dsimp only
          rw [hsnd, ← hvalid, hT, List.map_map, ← List.range_eq_range']
          rfl

/-! ## Runs with an identically zero Hamiltonian -/

/-- The complex cast of the zero Hamiltonian is zero. -/
theorem map_ofReal_zero {n : ℕ} :
    (0 : Matrix (Fin n) (Fin n) ℝ).map Complex.ofReal = 0 := by
  ext i j
  simp

/-- The evolution operator of the zero Hamiltonian is the identity. -/
theorem evolutionOperator_zero {n : ℕ} (dt : ℝ) :
    evolutionOperator dt (0 : Matrix (Fin n) (Fin n) ℝ) = 1 := by
  unfold evolutionOperator
  rw [map_ofReal_zero, smul_zero, NormedSpace.exp_zero]

/-- With an all-zero adjacency matrix, no harmony entries, unit veil
factors and no extra context every Hamiltonian entry vanishes. -/
theorem hamiltonianMatrix_trivial (p : OptimizerParams)
    (adjacency : List (List ℝ)) (veil : List ℝ)
    (hadj : ∀ i j, adjEntry adjacency i j = 0)
    (hveil : ∀ i, i < adjacency.length → veil.getD i 0 = 1) :
    hamiltonianMatrix p adjacency [] veil none = 0 := by
  ext i j
  show hEntry p adjacency [] veil none (i : ℕ) (j : ℕ) = 0
  unfold hEntry
  dsimp only
  have hsum0 : ∑ k ∈ Finset.range adjacency.length,
      adjEntry adjacency (i : ℕ) k = 0 :=
    Finset.sum_eq_zero fun k _ => hadj _ k
  have hclampv : (if veil.isEmpty then (0 : ℝ)
      else if (i : ℕ) = (j : ℕ)
        then 1 - min 1 (max 0 (veil.getD (i : ℕ) 0)) else 0) = 0 := by
    by_cases hemp : veil.isEmpty
    · rw [if_pos hemp]
    · rw [if_neg hemp]
      by_cases hij : (i : ℕ) = (j : ℕ)
      · rw [if_pos hij, hveil _ i.isLt,
          max_eq_right (by norm_num : (0 : ℝ) ≤ 1), min_self, sub_self]
      · rw [if_neg hij]
  rw [hsum0, hadj, hclampv, ite_self]
  simp

/-- A constant list is sorted descending. -/
theorem sorted_ge_replicate (n : ℕ) (c : ℝ) :
    List.Sorted (· ≥ ·) (List.replicate n c) :=
  List.pairwise_replicate.mpr (Or.inr (le_refl c))

/-- On a constant nonempty probability vector the selection threshold is
that constant, whatever the ratio. -/
theorem selection_threshold_replicate (ratio : ℝ) (n : ℕ) (c : ℝ)
    (hn : 1 ≤ n) :
    selection_threshold ratio (List.replicate n c) = c := by
  unfold selection_threshold
  rw [(sorted_ge_replicate n c).insertionSort_eq]
  simp only [List.length_replicate]
  have hidx : min (max 1 (Int.toNat ⌈(n : ℝ) * ratio⌉)) n - 1 <
      (List.replicate n c).length := by
    simp only [List.length_replicate]
    have h1 : min (max 1 (Int.toNat ⌈(n : ℝ) * ratio⌉)) n ≤ n :=
      min_le_right _ _
    omega
  rw [List.getD_eq_getElem _ _ hidx]
  simp

/-- Zipping against a sufficiently long constant list pairs each node with
the constant. -/
theorem zip_replicate_of_le (v : ℝ) :
    ∀ (nodes : List FixtureNode) (n : ℕ), nodes.length ≤ n →
      nodes.zip (List.replicate n v) = nodes.map fun nd => (nd, v) := by
  intro nodes
  induction nodes with
  | nil =>
    intro n _
    rfl
  | cons nd rest ih =>
    intro n hle
    cases n with
    | zero => simp at hle
    | succ m =>
      simp only [List.replicate_succ, List.zip_cons_cons, List.map_cons]
      rw [ih m (by simp only [List.length_cons] at hle; omega)]

/-- On a constant probability vector, selection keeps every node: the
threshold ties all of them. -/
theorem select_nodes_replicate (ratio : ℝ) (nodes : List FixtureNode)
    (n : ℕ) (v : ℝ) (hn : 1 ≤ n) (hlen : nodes.length ≤ n) :
    select_nodes ratio nodes (List.replicate n v) =
      nodes.map FixtureNode.id := by
  unfold select_nodes
  rw [selection_threshold_replicate ratio n v hn,
    zip_replicate_of_le v nodes n hlen]
  induction nodes with
  | nil => rfl
  | cons nd rest ih =>
    simp only [List.map_cons, List.filterMap_cons, ge_iff_le, le_refl,
      if_true]
    rw [ih (by simp only [List.length_cons] at hlen; omega)]

/-- A run of `optimize_sector` whose assembled Hamiltonian is identically
zero: validation passed, the operator is the identity, the state remains
the uniform superposition, every node gets probability 1/n, and the tied
threshold selects every node. -/
theorem optimize_sector_trivial (p : OptimizerParams) (cfg : SectorConfig)
    (adjacency : List (List ℝ)) (veil : List ℝ)
    (hval : validate_sector_inputs cfg adjacency [] veil none = none)
    (hn : 1 ≤ adjacency.length)
    (hnodes : cfg.nodes.length ≤ adjacency.length)
    (hH : hamiltonianMatrix p adjacency [] veil none = 0) :
    optimize_sector p cfg adjacency [] veil none =
      .ok { sector_id := cfg.sector_id,
            node_probabilities :=
              cfg.nodes.map fun nd => (nd.id, ((adjacency.length : ℝ))⁻¹),
            selected_nodes := cfg.nodes.map FixtureNode.id,
            wavefunction := List.replicate adjacency.length
              ((1 / Real.sqrt adjacency.length : ℝ) : ℂ) } := by
  have hnR : (0 : ℝ) < (adjacency.length : ℝ) := by
    exact_mod_cast Nat.lt_of_lt_of_le Nat.zero_lt_one hn
  have htot : (∑ k, Complex.normSq (uniformState adjacency.length k)) = 1 := by
    have hsq := wnorm_uniformState hn
    unfold wnorm at hsq
    exact Real.sqrt_eq_one.mp hsq
  have hval1 : Complex.normSq ((1 / Real.sqrt adjacency.length : ℝ) : ℂ) =
      ((adjacency.length : ℝ))⁻¹ := by
    rw [Complex.normSq_ofReal, div_mul_div_comm, one_mul,
      Real.mul_self_sqrt (le_of_lt hnR), one_div]
  have hprobs : ∀ j, j < adjacency.length →
      (fun idx => Complex.normSq
          (if h : idx < adjacency.length
            then uniformState adjacency.length ⟨idx, h⟩ else 0) /
        ∑ k, Complex.normSq (uniformState adjacency.length k)) j =
      ((adjacency.length : ℝ))⁻¹ := by
    intro j hj
    dsimp only
    rw [dif_pos hj, htot, div_one]
    exact hval1
  unfold optimize_sector
  rw [hval]
  dsimp only
  rw [hH, evolutionOperator_zero]
  rw [show simulate_walk
        (1 : Matrix (Fin adjacency.length) (Fin adjacency.length) ℂ)
        p.time_steps = .ok (uniformState adjacency.length) from
      walkIter_one_matrix p.time_steps _ (wnorm_uniformState hn)]
  dsimp only
  rw [attachProbs_const adjacency.length _ _ hprobs cfg.nodes 0
    (by omega)]
  dsimp only
  have hwave : (List.range adjacency.length).map
      (fun idx => if h : idx < adjacency.length
        then uniformState adjacency.length ⟨idx, h⟩ else 0) =
      List.replicate adjacency.length
        ((1 / Real.sqrt adjacency.length : ℝ) : ℂ) := by
    apply List.eq_replicate_iff.mpr
    refine ⟨by simp, ?_⟩
    intro b hb
    obtain ⟨i, hi, rfl⟩ := List.mem_map.mp hb
    rw [dif_pos (List.mem_range.mp hi)]
    rfl
  have hprange : (List.range adjacency.length).map
      (fun idx => Complex.normSq
          (if h : idx < adjacency.length
            then uniformState adjacency.length ⟨idx, h⟩ else 0) /
        ∑ k, Complex.normSq (uniformState adjacency.length k)) =
      List.replicate adjacency.length ((adjacency.length : ℝ))⁻¹ := by
    apply List.eq_replicate_iff.mpr
    refine ⟨by simp, ?_⟩
    intro b hb
    obtain ⟨i, hi, rfl⟩ := List.mem_map.mp hb
    exact hprobs i (List.mem_range.mp hi)
  rw [hwave, hprange,
    select_nodes_replicate p.selection_ratio cfg.nodes adjacency.length
      ((adjacency.length : ℝ))⁻¹ hn hnodes]

/-- Every entry of the all-zero 4 x 4 adjacency is zero. -/
theorem adjEntry_zero4 : ∀ i j, adjEntry zero4 i j = 0 := by
  intro i j
  unfold adjEntry zero4
  rcases i with - | - | - | - | i <;> rcases j with - | - | - | - | j <;> rfl

/-- Every entry of the all-zero 2 x 2 adjacency is zero. -/
theorem adjEntry_zero2 : ∀ i j, adjEntry zero2 i j = 0 := by
  intro i j
  unfold adjEntry zero2
  rcases i with - | - | i <;> rcases j with - | - | j <;> rfl

/-- The length-4 unit veil vector reads 1 below the bound. -/
theorem veil4_getD : ∀ i, i < zero4.length → veil4.getD i 0 = 1 := by
  intro i hi
  have hi4 : i < 4 := by simpa [zero4] using hi
  interval_cases i <;> rfl

/-- The length-2 unit veil vector reads 1 below the bound. -/
theorem veil2_getD : ∀ i, i < zero2.length → veil2.getD i 0 = 1 := by
  intro i hi
  have hi2 : i < 2 := by simpa [zero2] using hi
  interval_cases i <;> rfl

/-! ## Claim C8: Scenario B -/

/-- C8: four disconnected nodes, no harmony, unit veil, any laplacian
weight and any step count: the Hamiltonian is identically zero, every
probability is exactly 1/4, the threshold ties all four nodes, and all
four are selected although `ceil(4 * 0.25) = 1`. -/
theorem scenario_b_uniform_selection (lw : ℝ) (t : ℕ) :
    hamiltonianMatrix (paramsAt lw t) zero4 [] veil4 none = 0 ∧
    optimize_sector (paramsAt lw t) cfgQuad zero4 [] veil4 none =
      .ok { sector_id := 2,
            node_probabilities := [("b0", (4 : ℝ)⁻¹), ("b1", (4 : ℝ)⁻¹),
              ("b2", (4 : ℝ)⁻¹), ("b3", (4 : ℝ)⁻¹)],
            selected_nodes := ["b0", "b1", "b2", "b3"],
            wavefunction := List.replicate 4 ((1 / 2 : ℝ) : ℂ) } ∧
    Int.toNat ⌈(4 : ℝ) * (paramsAt lw t).selection_ratio⌉ = 1 := by
  have hH := hamiltonianMatrix_trivial (paramsAt lw t) zero4 veil4
    adjEntry_zero4 veil4_getD
  refine ⟨hH, ?_, ?_⟩
  · have hmain := optimize_sector_trivial (paramsAt lw t) cfgQuad zero4 veil4
      rfl (by simp [zero4]) (by simp [zero4, cfgQuad]) hH
    rw [hmain]
    have hsq : Real.sqrt (4 : ℝ) = 2 := by
      rw [show (4 : ℝ) = (2 : ℝ) ^ 2 by norm_num,
        Real.sqrt_sq (by norm_num : (0 : ℝ) ≤ 2)]
    norm_num [cfgQuad, zero4, hsq]
  · rw [show (4 : ℝ) * (paramsAt lw t).selection_ratio = 1 by
      norm_num [paramsAt]]
    rw [Int.ceil_one]
    rfl

/-! ## Claim C7: the shape validation never compares against the node
count -/

/-- C7: a square 2 x 2 adjacency handed to a one-node sector violates the
precondition "square with dimension equal to the node count", yet no
validation error is raised: `node_count` is read off the adjacency matrix
itself, the run completes and returns a result (with a probability map
covering half the mass).  The source's own error message promises a check
the code does not perform. -/
theorem mismatched_adjacency_not_rejected :
    validate_sector_inputs cfgMismatch zero2 [] veil2 none = none ∧
    zero2.length ≠ cfgMismatch.nodes.length ∧
    optimize_sector defaultParams cfgMismatch zero2 [] veil2 none =
      .ok { sector_id := 9,
            node_probabilities := [("m", (2 : ℝ)⁻¹)],
            selected_nodes := ["m"],
            wavefunction := List.replicate 2 ((1 / Real.sqrt 2 : ℝ) : ℂ) } := by
  refine ⟨rfl, by simp [zero2, cfgMismatch], ?_⟩
  have hmain := optimize_sector_trivial defaultParams cfgMismatch zero2 veil2
    rfl (by simp [zero2]) (by simp [zero2, cfgMismatch])
    (hamiltonianMatrix_trivial _ _ _ adjEntry_zero2 veil2_getD)
  rw [hmain]
  norm_num [cfgMismatch, zero2]

/-! ## Claim C1: the batch orchestrator -/

/-- The proximity graph of the single-node sector: a 1 x 1 zero matrix and
no harmony entries. -/
theorem build_sector_graph_single :
    build_sector_graph cfgSingle 10 = ([[(0 : ℝ)]], []) := by
  simp [build_sector_graph, cfgSingle, List.range_succ]

/-- The veil factors of the single-node sector under the all-layers
profile. -/
theorem get_veil_factors_single :
    get_veil_factors cfgSingle.nodes LayerProfile.all_layers = [(1 : ℝ)] := by
  simp [get_veil_factors, veilValue, cfgSingle]

/-- The single-node task run on its own succeeds with probability one. -/
theorem taskGood_succeeds :
    processor_optimize_sector defaultParams 10 taskGood = .ok resGood := by
  have hadj : ∀ i j, adjEntry [[(0 : ℝ)]] i j = 0 := by
    intro i j
    unfold adjEntry
    rcases i with - | i <;> rcases j with - | j <;> rfl
  have hveil : ∀ i, i < ([[(0 : ℝ)]] : List (List ℝ)).length →
      ([(1 : ℝ)]).getD i 0 = 1 := by
    intro i hi
    have hi1 : i < 1 := by simpa using hi
    interval_cases i
    rfl
  have hmain := optimize_sector_trivial defaultParams cfgSingle
    [[(0 : ℝ)]] [(1 : ℝ)] rfl (by simp) (by simp [cfgSingle])
    (hamiltonianMatrix_trivial _ _ _ hadj hveil)
  show optimize_sector defaultParams cfgSingle
      (build_sector_graph cfgSingle 10).1 (build_sector_graph cfgSingle 10).2
      (get_veil_factors cfgSingle.nodes LayerProfile.all_layers) none =
    .ok resGood
  rw [build_sector_graph_single, get_veil_factors_single]
  rw [hmain]
  norm_num [cfgSingle, resGood, Real.sqrt_one]

/-- C1: one failing task destroys the whole batch: the task list whose
first-completed future raises (the empty sector) makes `optimize_sectors`
raise and return NO results, although the other task succeeds on its own.
The succeeded result is silently dropped instead of being surfaced
alongside the failure. -/
theorem batch_failure_discards_successes :
    processor_optimize_sector defaultParams 10 taskGood = .ok resGood ∧
    optimize_sectors defaultParams 10 [taskBad, taskGood] =
      .error .emptySector := by
  refine ⟨taskGood_succeeds, ?_⟩
  have hbad : processor_optimize_sector defaultParams 10 taskBad =
      .error .emptySector := rfl
  show ([taskBad, taskGood].mapM
    (processor_optimize_sector defaultParams 10)) = .error .emptySector
  rw [List.mapM_cons, hbad]
  rfl

/-! ## Claim C5 witness -/

/-- C5 witness: the two-node sector on the all-zero adjacency succeeds, its
probability map has one entry per node in order and the probabilities sum
to one. -/
theorem optimize_sector_probabilities_witness :
    (rPair.node_probabilities.map Prod.snd).sum = 1 ∧
    rPair.node_probabilities.map Prod.fst =
      cfgPair.nodes.map FixtureNode.id := by
  have hok : optimize_sector defaultParams cfgPair zero2 [] veil2 none =
      .ok rPair := by
    have hmain := optimize_sector_trivial defaultParams cfgPair zero2 veil2
      rfl (by simp [zero2]) (by simp [zero2, cfgPair])
      (hamiltonianMatrix_trivial _ _ _ adjEntry_zero2 veil2_getD)
    rw [hmain]
    norm_num [cfgPair, zero2, rPair]
  have h := optimize_sector_probabilities defaultParams cfgPair zero2 [] veil2
    none rPair (by simp [zero2, cfgPair]) hok
  exact ⟨h.1, h.2.1⟩

/-! ## Claim C4: threshold selection -/

/-- The number of selected ids equals the number of zip pairs at or above
the threshold. -/
theorem select_length_eq_countP (t : ℝ) :
    ∀ l : List (FixtureNode × ℝ),
      (l.filterMap fun pr =>
        if pr.2 ≥ t then some pr.1.id else none).length =
      l.countP fun pr => decide (pr.2 ≥ t) := by
  intro l
  induction l with
  | nil => rfl
  | cons a rest ih =>
    by_cases h : a.2 ≥ t
    · simp [List.filterMap_cons, List.countP_cons, h, ih]
    · simp [List.filterMap_cons, List.countP_cons, h, ih]

/-- Counting pairs of the zip by their probability component counts the
probabilities themselves when the lengths agree. -/
theorem countP_zip_snd (t : ℝ) :
    ∀ (nodes : List FixtureNode) (probs : List ℝ),
      nodes.length = probs.length →
      ((nodes.zip probs).countP fun pr => decide (pr.2 ≥ t)) =
      probs.countP fun x => decide (x ≥ t) := by
  intro nodes
  induction nodes with
  | nil =>
    intro probs h
    cases probs with
    | nil => rfl
    | cons p ps => simp at h
  | cons nd rest ih =>
    intro probs h
    cases probs with
    | nil => simp at h
    | cons p ps =>
      simp only [List.zip_cons_cons, List.countP_cons]
      rw [ih ps (by simpa using h)]

/-- At least c probabilities reach the c-th largest probability. -/
theorem countP_ge_threshold (probs : List ℝ) (c : ℕ) (hc1 : 1 ≤ c)
    (hcn : c ≤ probs.length) :
    c ≤ probs.countP fun x =>
      decide (x ≥ (List.insertionSort (· ≥ ·) probs).getD (c - 1) 0) := by
  have hperm : List.Perm (List.insertionSort (· ≥ ·) probs) probs :=
    List.perm_insertionSort _ _
  have hsorted : List.Sorted (· ≥ ·) (List.insertionSort (· ≥ ·) probs) :=
    List.sorted_insertionSort _ _
  set s := List.insertionSort (· ≥ ·) probs with hs
  have hlen : s.length = probs.length := hperm.length_eq
  have hidx : c - 1 < s.length := by omega
  rw [List.getD_eq_getElem _ _ hidx]
  rw [← hperm.countP_eq]
  have hmono : ∀ i, ∀ hi : i < s.length, i ≤ c - 1 → s[c - 1] ≤ s[i] := by
    intro i hi hle
    rcases eq_or_lt_of_le hle with heq | hlt
    · subst heq
      exact le_refl _
    · exact (List.pairwise_iff_getElem.mp hsorted) i (c - 1) hi hidx hlt
  have htake : ((s.take c).countP fun x => decide (x ≥ s[c - 1])) =
      (s.take c).length := by
    rw [List.countP_eq_length]
    intro a ha
    obtain ⟨i, hilt, hieq⟩ := List.mem_iff_getElem.mp ha
    have hic : i < c := by
      have := hilt
      simp only [List.length_take] at this
      omega
    have his : i < s.length := by
      have := hilt
      simp only [List.length_take] at this
      omega
    rw [List.getElem_take] at hieq
    rw [← hieq]
    simp only [ge_iff_le, decide_eq_true_eq]
    exact hmono i his (by omega)
  have hlentake : (s.take c).length = c := by
    simp only [List.length_take]
    omega
  calc c = (s.take c).length := hlentake.symm
    _ = (s.take c).countP fun x => decide (x ≥ s[c - 1]) := htake.symm
    _ ≤ (s.take c).countP (fun x => decide (x ≥ s[c - 1])) +
        (s.drop c).countP fun x => decide (x ≥ s[c - 1]) := Nat.le_add_right _ _
    _ = s.countP fun x => decide (x ≥ s[c - 1]) := by
        rw [← List.countP_append, List.take_append_drop]

/-- Pairs of the zip are determined by their node component when the node
ids are distinct. -/
theorem zip_unique_snd :
    ∀ (nodes : List FixtureNode) (probs : List ℝ),
      (nodes.map FixtureNode.id).Nodup →
      ∀ (a : FixtureNode) (pa pb : ℝ), (a, pa) ∈ nodes.zip probs →
        (a, pb) ∈ nodes.zip probs → pa = pb := by
  intro nodes
  induction nodes with
  | nil =>
    intro probs _ a pa pb ha
    simp at ha
  | cons nd rest ih =>
    intro probs hnd a pa pb ha hb
    cases probs with
    | nil => simp at ha
    | cons p ps =>
      simp only [List.zip_cons_cons, List.mem_cons] at ha hb
      simp only [List.map_cons, List.nodup_cons] at hnd
      rcases ha with ha | ha
      · rcases hb with hb | hb
        · rw [Prod.mk.injEq] at ha hb
          rw [ha.2, hb.2]
        · exfalso
          rw [Prod.mk.injEq] at ha
          have hmem : a ∈ rest := ((List.of_mem_zip hb).1)
          exact hnd.1 (List.mem_map.mpr ⟨a, hmem, by rw [ha.1]⟩)
      · rcases hb with hb | hb
        · exfalso
          rw [Prod.mk.injEq] at hb
          have hmem : a ∈ rest := ((List.of_mem_zip ha).1)
          exact hnd.1 (List.mem_map.mpr ⟨a, hmem, by rw [hb.1]⟩)
        · exact ih ps hnd.2 a pa pb ha hb

/-- Selection membership: with distinct node ids, a node of the sector is
selected exactly when its probability reaches the threshold. -/
theorem mem_select_iff (ratio : ℝ) (nodes : List FixtureNode)
    (probs : List ℝ) (hids : (nodes.map FixtureNode.id).Nodup)
    (a : FixtureNode) (pa : ℝ) (hmem : (a, pa) ∈ nodes.zip probs) :
    a.id ∈ select_nodes ratio nodes probs ↔
      selection_threshold ratio probs ≤ pa := by
  unfold select_nodes
  constructor
  · intro hin
    obtain ⟨pr, hpr, hprid⟩ := List.mem_filterMap.mp hin
    by_cases hge : pr.2 ≥ selection_threshold ratio probs
    · rw [if_pos hge] at hprid
      have hprid' : pr.1.id = a.id := by
        injection hprid
      have ha1 : pr.1 ∈ nodes := (List.of_mem_zip hpr).1
      have ha2 : a ∈ nodes := (List.of_mem_zip hmem).1
      have heqnode : pr.1 = a :=
        List.inj_on_of_nodup_map hids ha1 ha2 hprid'
      have hpa : pr.2 = pa := by
        apply zip_unique_snd nodes probs hids a pr.2 pa
        · rw [← heqnode]
          exact hpr
        · exact hmem
      rw [← hpa]
      exact hge
    · rw [if_neg hge] at hprid
      cases hprid
  · intro hge
    apply List.mem_filterMap.mpr
    exact ⟨(a, pa), hmem, by rw [if_pos hge]⟩

/-- C4: node selection takes `c = max(1, ceil(n * ratio))` (clamped to n),
thresholds at the c-th largest probability and keeps every node at or
above it: for a valid sector with a ratio in (0, 1], the selected count is
at least `ceil(n * ratio)` and at most n, a node is selected exactly when
its probability reaches the threshold (ties are never broken), and every
selected node's probability strictly exceeds every unselected node's. -/
theorem select_nodes_spec (ratio : ℝ) (nodes : List FixtureNode)
    (probs : List ℝ) (hlen : nodes.length = probs.length)
    (hn : 1 ≤ probs.length) (hr0 : 0 < ratio) (hr1 : ratio ≤ 1)
    (hids : (nodes.map FixtureNode.id).Nodup) :
    Int.toNat ⌈(probs.length : ℝ) * ratio⌉ ≤
        (select_nodes ratio nodes probs).length ∧
    (select_nodes ratio nodes probs).length ≤ probs.length ∧
    (∀ (a : FixtureNode) (pa : ℝ), (a, pa) ∈ nodes.zip probs →
      (a.id ∈ select_nodes ratio nodes probs ↔
        selection_threshold ratio probs ≤ pa)) ∧
    (∀ (a : FixtureNode) (pa : ℝ) (b : FixtureNode) (pb : ℝ),
      (a, pa) ∈ nodes.zip probs → (b, pb) ∈ nodes.zip probs →
      a.id ∈ select_nodes ratio nodes probs →
      b.id ∉ select_nodes ratio nodes probs → pb < pa) := by
  have hkn : Int.toNat ⌈(probs.length : ℝ) * ratio⌉ ≤ probs.length := by
    rw [Int.toNat_le]
    rw [Int.ceil_le]
    push_cast
    exact mul_le_of_le_one_right (by positivity) hr1
  have hc1 : 1 ≤ min (max 1 (Int.toNat ⌈(probs.length : ℝ) * ratio⌉))
      probs.length := le_min (le_max_left _ _) hn
  have hck : Int.toNat ⌈(probs.length : ℝ) * ratio⌉ ≤
      min (max 1 (Int.toNat ⌈(probs.length : ℝ) * ratio⌉)) probs.length :=
    le_min (le_max_right _ _) hkn
  have hcn : min (max 1 (Int.toNat ⌈(probs.length : ℝ) * ratio⌉))
      probs.length ≤ probs.length := min_le_right _ _
  have hlensel : (select_nodes ratio nodes probs).length =
      probs.countP fun x => decide (x ≥ selection_threshold ratio probs) := by
    unfold select_nodes
    rw [select_length_eq_countP, countP_zip_snd _ _ _ hlen]
  refine ⟨?_, ?_, mem_select_iff ratio nodes probs hids, ?_⟩
  · rw [hlensel]
    refine le_trans hck (le_trans ?_ (le_refl _))
    have := countP_ge_threshold probs
      (min (max 1 (Int.toNat ⌈(probs.length : ℝ) * ratio⌉)) probs.length)
      hc1 hcn
    calc min (max 1 (Int.toNat ⌈(probs.length : ℝ) * ratio⌉)) probs.length
        ≤ probs.countP fun x => decide (x ≥
            (List.insertionSort (· ≥ ·) probs).getD
              (min (max 1 (Int.toNat ⌈(probs.length : ℝ) * ratio⌉))
                probs.length - 1) 0) := this
      _ = probs.countP fun x =>
            decide (x ≥ selection_threshold ratio probs) := rfl
  · rw [hlensel]
    exact le_trans (List.countP_le_length _) (le_refl _)
  · intro a pa b pb hma hmb hain hbout
    have hiff_a := mem_select_iff ratio nodes probs hids a pa hma
    have hiff_b := mem_select_iff ratio nodes probs hids b pb hmb
    have hta : selection_threshold ratio probs ≤ pa := hiff_a.mp hain
    have htb : ¬ selection_threshold ratio probs ≤ pb := fun h =>
      hbout (hiff_b.mpr h)
    have : pb < selection_threshold ratio probs := lt_of_not_le htb
    exact lt_of_lt_of_le this hta

/-- C4 witness at a concrete two-node sector with ratio 1/2: the selected
count is between `ceil(2 * 0.5) = 1` and 2. -/
theorem select_nodes_spec_witness :
    Int.toNat ⌈(probsSel.length : ℝ) * (1 / 2)⌉ ≤
        (select_nodes (1 / 2) nodesSel probsSel).length ∧
    (select_nodes (1 / 2) nodesSel probsSel).length ≤ probsSel.length := by
  have h := select_nodes_spec (1 / 2) nodesSel probsSel rfl
    (by norm_num [probsSel]) (by norm_num) (by norm_num)
    (by simp [nodesSel])
  exact ⟨h.1, h.2.1⟩

/-! ## Claim C10: the pipeline always satisfies the optimizer's
preconditions -/

/-- The adjacency matrix produced by the partitioner is square with
dimension equal to the sector's node count. -/
theorem build_sector_graph_adjacency_shape (cfg : SectorConfig) (thr : ℝ) :
    (build_sector_graph cfg thr).1.length = cfg.nodes.length ∧
    ∀ row ∈ (build_sector_graph cfg thr).1,
      row.length = cfg.nodes.length := by
  constructor
  · unfold build_sector_graph
    simp
  · intro row hrow
    unfold build_sector_graph at hrow
    simp only [List.mem_map, List.mem_range] at hrow
    obtain ⟨i, hi, rfl⟩ := hrow
    simp

/-- Every harmony key produced by the partitioner is an ordered in-range
index pair. -/
theorem build_sector_graph_harmony_mem (cfg : SectorConfig) (thr : ℝ) :
    ∀ e ∈ (build_sector_graph cfg thr).2,
      e.1.1 < e.1.2 ∧ e.1.2 < cfg.nodes.length := by
  intro e he
  unfold build_sector_graph at he
  simp only [List.mem_flatMap, List.mem_filterMap, List.mem_range] at he
  obtain ⟨i, hi, j, hj, hsome⟩ := he
  split at hsome
  next hcond =>
    cases hsome
    exact ⟨hcond.1, hj⟩
  next =>
    cases hsome

/-- C10: the outputs of `build_sector_graph` and `get_veil_factors` always
satisfy the optimizer's input preconditions for their sector — the
adjacency is square of dimension equal to the node count, the veil vector
has the node count's length, every harmony key (i, j) has i < j below the
node count — so when the processor drives the pipeline with no extra
context, validation never reaches the shape-mismatch or harmony-index
branches: it passes outright, or fails with the empty-sector error alone
when the sector has no nodes. -/
theorem pipeline_inputs_satisfy_preconditions (cfg : SectorConfig)
    (thr : ℝ) (profile : LayerProfile) :
    (build_sector_graph cfg thr).1.length = cfg.nodes.length ∧
    ((build_sector_graph cfg thr).1.all
      fun row => row.length == cfg.nodes.length) = true ∧
    (get_veil_factors cfg.nodes profile).length = cfg.nodes.length ∧
    ((build_sector_graph cfg thr).2.all
      fun e => decide (e.1.1 < e.1.2) &&
        decide (e.1.2 < cfg.nodes.length)) = true ∧
    (validate_sector_inputs cfg (build_sector_graph cfg thr).1
        (build_sector_graph cfg thr).2
        (get_veil_factors cfg.nodes profile) none = none ∨
      validate_sector_inputs cfg (build_sector_graph cfg thr).1
        (build_sector_graph cfg thr).2
        (get_veil_factors cfg.nodes profile) none =
        some OptError.emptySector) := by
  obtain ⟨hlen, hrows⟩ := build_sector_graph_adjacency_shape cfg thr
  have hharm := build_sector_graph_harmony_mem cfg thr
  refine ⟨hlen, ?_, by simp [get_veil_factors], ?_, ?_⟩
  · rw [List.all_eq_true]
    intro row hrow
    simp only [beq_iff_eq]
    exact hrows row hrow
  · rw [List.all_eq_true]
    intro e he
    simp only [Bool.and_eq_true, decide_eq_true_eq]
    exact hharm e he
  · by_cases hnodes : cfg.nodes = []
    · right
      simp [validate_sector_inputs, hnodes]
    · left
      have hisEmpty : cfg.nodes.isEmpty = false := by
        simp [List.isEmpty_iff, hnodes]
      have hall : ((build_sector_graph cfg thr).1.all
          fun row => row.length ==
            (build_sector_graph cfg thr).1.length) = true := by
        rw [List.all_eq_true]
        intro row hrow
        simp only [beq_iff_eq]
        rw [hlen]
        exact hrows row hrow
      have hveillen : (get_veil_factors cfg.nodes profile).length =
          (build_sector_graph cfg thr).1.length := by
        rw [hlen]
        simp [get_veil_factors]
      have hany : ((build_sector_graph cfg thr).2.any
          fun e => decide ((build_sector_graph cfg thr).1.length ≤ e.1.1 ∨
            (build_sector_graph cfg thr).1.length ≤ e.1.2)) = false := by
        rw [List.any_eq_false]
        intro e he
        obtain ⟨h1, h2⟩ := hharm e he
        simp only [decide_eq_true_eq]
        rw [hlen]
        omega
      simp only [validate_sector_inputs, hisEmpty, hall, hveillen, hany]
      simp
